import Mathlib

set_option maxRecDepth 4000

/-!
Verification of the `jump_game` module (`src/jump_game.rs`).

The program holds a board of non-negative integers together with a starting
index, and decides winnability of the "jump game": starting at the given
index, repeatedly jump left or right by the value at the current cell until a
cell holding `0` is reached (win) or the reachable frontier is exhausted
(loss).

We embed the Rust code shallowly:
* `Vec<usize>` becomes `List Nat`, `isize` becomes `Int`;
* the three `panic!` calls of `JumpGame::new`, which carry three distinct
  messages, become the three constructors of `JumpGameError`, and `new`
  returns `Except JumpGameError JumpGame`;
* the `while let Some(i) = stack.pop()` loop of `is_winnable` becomes the
  well-founded recursion `is_winnableLoop`, with the `Vec` stack as a
  `List Int` whose head is the top of the stack and the `HashSet` of visited
  candidates as a `List Int` queried by membership (a `HashSet` is
  observationally a set of its inserted elements);
* `self.board.get(current_index as usize)` becomes
  `board[current_index.toNat]?`, which is guarded by the preceding
  `current_index < 0` test exactly as in the source;
* the cast `*value as isize` of a board value is a two's-complement
  reinterpretation in Rust (defined behavior in every build profile:
  `v` for `v < 2^63`, `v - 2^64` otherwise); it is modelled exactly by
  `usizeAsIsize`, with the explicit `% 2^64`, so that e.g. a cell holding
  `usize::MAX` jumps by `-1`, as the code does, not by `2^64 - 1`.

A small-step version `searchStep` of the same loop body is also defined, to
state invariants about the intermediate stack/visited states of a run.
-/

/-- The three construction-time failures of `JumpGame::new`, one per
`panic!` message in the source, in source order. -/
inductive JumpGameError where
  | EmptyBoard
  | StartingIndexOutOfBounds
  | NoWinningCell
deriving DecidableEq, Repr

/-- The `JumpGame` struct: a board of non-negative integers and a starting
position. -/
structure JumpGame where
  board : List Nat
  starting_index : Nat
deriving DecidableEq, Repr

/-- `JumpGame::new`: validates emptiness, then the starting index bound,
then the presence of a `0` cell, in that order; on success stores the two
fields unchanged. -/
def JumpGame.new (board : List Nat) (starting_index : Nat) :
    Except JumpGameError JumpGame :=
  if board.length = 0 then
    .error .EmptyBoard
  else if starting_index ≥ board.length then
    .error .StartingIndexOutOfBounds
  else if ¬ board.any (fun x => x = 0) then
    .error .NoWinningCell
  else
    .ok { board := board, starting_index := starting_index }

/-- Number of in-bounds board indices not yet in the visited list; the
decreasing measure of the search loop (each productive iteration visits a
fresh in-bounds index). -/
def unvisitedCount (board : List Nat) (visited : List Int) : Nat :=
  ((Finset.range board.length).filter (fun k : Nat => ¬ ((k : Int) ∈ visited))).card

/-- The cast `v as isize` of the source, for a `usize` value `v`: the
two's-complement reinterpretation of the low 64 bits, i.e. `v` itself when
`v % 2^64 < 2^63` and `v % 2^64 - 2^64` otherwise (so `usize::MAX` casts
to `-1`). -/
def usizeAsIsize (v : Nat) : Int :=
  ((v : Int) + 9223372036854775808) % 18446744073709551616 - 9223372036854775808

/-- The `while let Some(current_index) = stack.pop()` loop of
`JumpGame::is_winnable`.  The head of `stack` is the top of the Rust `Vec`
stack, so pushing `i - (v as isize)` then `i + (v as isize)` in the source
yields the list `(i + usizeAsIsize v) :: (i - usizeAsIsize v) :: rest`
here.  The final `visited.insert` of the loop
body is reached by the `some v, v ≠ 0` branch and the `none` branch, and
skipped by the two `continue`s and the early `return true`, exactly as in
the source. -/
def is_winnableLoop (board : List Nat) (stack : List Int) (visited : List Int) :
    Bool :=
  match stack with
  | [] => false
  | current_index :: rest =>
    if hmem : current_index ∈ visited then
      -- we've been here already - prevent infinite loops
      is_winnableLoop board rest visited
    else if hneg : current_index < 0 then
      -- out of bounds left
      is_winnableLoop board rest (current_index :: visited)
    else
      match hget : board[current_index.toNat]? with
      | some v =>
        if v = 0 then
          -- WINNER!
          true
        else
          -- not a 0, but still in bounds
          is_winnableLoop board
            ((current_index + usizeAsIsize v) ::
              (current_index - usizeAsIsize v) :: rest)
            (current_index :: visited)
      | none =>
        -- out of bounds right
        is_winnableLoop board rest (current_index :: visited)
termination_by 2 * unvisitedCount board visited + stack.length
decreasing_by
  · simp only [List.length_cons]; omega
  · have hle : unvisitedCount board (current_index :: visited) ≤
        unvisitedCount board visited := by
      apply Finset.card_le_card
      apply Finset.monotone_filter_right
      intro k hk
      simp only [List.mem_cons, not_or] at hk ⊢
      exact hk.2
    simp only [List.length_cons]
    omega
  · have hlt : unvisitedCount board (current_index :: visited) <
        unvisitedCount board visited := by
      apply Finset.card_lt_card
      constructor
      · apply Finset.monotone_filter_right
        intro k hk
        simp only [List.mem_cons, not_or] at hk ⊢
        exact hk.2
      · intro hsub
        have hlen : current_index.toNat < board.length := by
          rcases List.getElem?_eq_some.mp hget with ⟨h, _⟩
          exact h
        have hmem2 : current_index.toNat ∈
            (Finset.range board.length).filter
              (fun k : Nat => ¬ ((k : Int) ∈ visited)) := by
          simp only [Finset.mem_filter, Finset.mem_range]
          refine ⟨hlen, ?_⟩
          rwa [Int.toNat_of_nonneg (by omega)]
        have := hsub hmem2
        simp only [Finset.mem_filter, List.mem_cons, not_or] at this
        exact this.2.1 (by rw [Int.toNat_of_nonneg (by omega)])
    simp only [List.length_cons]
    omega
  · have hle : unvisitedCount board (current_index :: visited) ≤
        unvisitedCount board visited := by
      apply Finset.card_le_card
      apply Finset.monotone_filter_right
      intro k hk
      simp only [List.mem_cons, not_or] at hk ⊢
      exact hk.2
    simp only [List.length_cons]
    omega

/-- `JumpGame::is_winnable`: run the search loop from a stack holding only
the starting index and an empty visited set. -/
def JumpGame.is_winnable (g : JumpGame) : Bool :=
  is_winnableLoop g.board [(g.starting_index : Int)] []

/-- The state of the `is_winnable` loop between iterations: either still
running with a stack and a visited list, or finished with a boolean
result. -/
inductive SearchState where
  | running (stack : List Int) (visited : List Int)
  | done (result : Bool)
deriving DecidableEq, Repr

/-- One iteration of the `is_winnable` loop as a small-step function on
`SearchState`; branch for branch the same code as `is_winnableLoop`, used to
state invariants about the intermediate states of a run.  A finished state
is absorbing. -/
def searchStep (board : List Nat) : SearchState → SearchState
  | .done b => .done b
  | .running [] _ => .done false
  | .running (current_index :: rest) visited =>
    if current_index ∈ visited then
      .running rest visited
    else if current_index < 0 then
      .running rest (current_index :: visited)
    else
      match board[current_index.toNat]? with
      | some v =>
        if v = 0 then
          .done true
        else
          .running
            ((current_index + usizeAsIsize v) ::
              (current_index - usizeAsIsize v) :: rest)
            (current_index :: visited)
      | none =>
        .running rest (current_index :: visited)

/-- The visited list of a running state, `none` once the loop has
finished. -/
def stateVisited : SearchState → Option (List Int)
  | .running _ visited => some visited
  | .done _ => none

/-- The boolean the loop will eventually produce from a given state:
already-known for a finished state, the value of the remaining loop
otherwise. -/
def loopResult (board : List Nat) : SearchState → Bool
  | .done b => b
  | .running stack visited => is_winnableLoop board stack visited

/-- One jump of the game exactly as the spec words it: from an in-bounds
index `i` whose cell holds `v` one may move to `i - v` or to `i + v`, with
`v` taken as the unbounded number stored in the cell. -/
def stepRel (board : List Nat) (i j : Int) : Prop :=
  0 ≤ i ∧ ∃ v : Nat, board[i.toNat]? = some v ∧ (j = i - (v : Int) ∨ j = i + (v : Int))

/-- One jump of the game as the code performs it: from an in-bounds index
`i` whose cell holds `v` one may move to `i - (v as isize)` or to
`i + (v as isize)`; this differs from `stepRel` only for cells holding
values `≥ 2^63`, where the cast wraps. -/
def stepRelCast (board : List Nat) (i j : Int) : Prop :=
  0 ≤ i ∧ ∃ v : Nat, board[i.toNat]? = some v ∧
    (j = i - usizeAsIsize v ∨ j = i + usizeAsIsize v)

/-- `j` is an in-bounds index whose cell holds `0`: landing there wins. -/
def winIdx (board : List Nat) (j : Int) : Prop :=
  0 ≤ j ∧ board[j.toNat]? = some 0

/-- The spec's notion of winnability, with jumps taken literally by the
stored cell value: some finite sequence of `stepRel` jumps from the
starting index reaches an in-bounds cell holding `0`. -/
def winnableSpec (board : List Nat) (start : Nat) : Prop :=
  ∃ j : Int, Relation.ReflTransGen (stepRel board) (start : Int) j ∧ winIdx board j

/-- Winnability with jumps by the cast value, as the code computes them:
some finite sequence of `stepRelCast` jumps from the starting index reaches
an in-bounds cell holding `0`.  Coincides with `winnableSpec` whenever every
board value is `< 2^63`. -/
def winnableSpecCast (board : List Nat) (start : Nat) : Prop :=
  ∃ j : Int, Relation.ReflTransGen (stepRelCast board) (start : Int) j ∧ winIdx board j

/-- No member of the visited list of a (running) state is a winning index;
an invariant of every run of the loop. -/
def noWinVisited (board : List Nat) : SearchState → Prop
  | .done _ => True
  | .running _ visited => ∀ x ∈ visited, ¬ winIdx board x

/-- The variant of the search loop that pushes `i + (v as isize)` before
`i - (v as isize)` (the source pushes `i - (v as isize)` first), so here
`i - usizeAsIsize v` becomes the top of the stack.  Identical to
`is_winnableLoop` in every other respect. -/
def is_winnableLoopPushSwapped (board : List Nat) (stack : List Int)
    (visited : List Int) : Bool :=
  match stack with
  | [] => false
  | current_index :: rest =>
    if hmem : current_index ∈ visited then
      is_winnableLoopPushSwapped board rest visited
    else if hneg : current_index < 0 then
      is_winnableLoopPushSwapped board rest (current_index :: visited)
    else
      match hget : board[current_index.toNat]? with
      | some v =>
        if v = 0 then
          true
        else
          is_winnableLoopPushSwapped board
            ((current_index - usizeAsIsize v) ::
              (current_index + usizeAsIsize v) :: rest)
            (current_index :: visited)
      | none =>
        is_winnableLoopPushSwapped board rest (current_index :: visited)
termination_by 2 * unvisitedCount board visited + stack.length
decreasing_by
  · simp only [List.length_cons]; omega
  · have hle : unvisitedCount board (current_index :: visited) ≤
        unvisitedCount board visited := by
      apply Finset.card_le_card
      apply Finset.monotone_filter_right
      intro k hk
      simp only [List.mem_cons, not_or] at hk ⊢
      exact hk.2
    simp only [List.length_cons]
    omega
  · have hlt : unvisitedCount board (current_index :: visited) <
        unvisitedCount board visited := by
      apply Finset.card_lt_card
      constructor
      · apply Finset.monotone_filter_right
        intro k hk
        simp only [List.mem_cons, not_or] at hk ⊢
        exact hk.2
      · intro hsub
        have hlen : current_index.toNat < board.length := by
          rcases List.getElem?_eq_some.mp hget with ⟨h, _⟩
          exact h
        have hmem2 : current_index.toNat ∈
            (Finset.range board.length).filter
              (fun k : Nat => ¬ ((k : Int) ∈ visited)) := by
          simp only [Finset.mem_filter, Finset.mem_range]
          refine ⟨hlen, ?_⟩
          rwa [Int.toNat_of_nonneg (by omega)]
        have := hsub hmem2
        simp only [Finset.mem_filter, List.mem_cons, not_or] at this
        exact this.2.1 (by rw [Int.toNat_of_nonneg (by omega)])
    simp only [List.length_cons]
    omega
  · have hle : unvisitedCount board (current_index :: visited) ≤
        unvisitedCount board visited := by
      apply Finset.card_le_card
      apply Finset.monotone_filter_right
      intro k hk
      simp only [List.mem_cons, not_or] at hk ⊢
      exact hk.2
    simp only [List.length_cons]
    omega

/-- `is_winnable` computed with the swapped push order. -/
def JumpGame.is_winnablePushSwapped (g : JumpGame) : Bool :=
  is_winnableLoopPushSwapped g.board [(g.starting_index : Int)] []

/-! ### Unfolding lemmas for the search loop -/

theorem is_winnableLoop_nil (board : List Nat) (visited : List Int) :
    is_winnableLoop board [] visited = false := by
  rw [is_winnableLoop]

theorem is_winnableLoop_visited (board : List Nat) (i : Int)
    (rest visited : List Int) (h : i ∈ visited) :
    is_winnableLoop board (i :: rest) visited =
      is_winnableLoop board rest visited := by
  rw [is_winnableLoop]
  simp [h]

theorem is_winnableLoop_neg (board : List Nat) (i : Int)
    (rest visited : List Int) (h1 : i ∉ visited) (h2 : i < 0) :
    is_winnableLoop board (i :: rest) visited =
      is_winnableLoop board rest (i :: visited) := by
  rw [is_winnableLoop]
  simp [h1, h2]

theorem is_winnableLoop_oobRight (board : List Nat) (i : Int)
    (rest visited : List Int) (h1 : i ∉ visited) (h2 : ¬ i < 0)
    (h3 : board[i.toNat]? = none) :
    is_winnableLoop board (i :: rest) visited =
      is_winnableLoop board rest (i :: visited) := by
  rw [is_winnableLoop]
  simp only [h1, h2, dite_false, dite_true, dif_neg, not_false_iff]
  split
  · simp_all
  · rfl

theorem is_winnableLoop_win (board : List Nat) (i : Int)
    (rest visited : List Int) (h1 : i ∉ visited) (h2 : ¬ i < 0)
    (h3 : board[i.toNat]? = some 0) :
    is_winnableLoop board (i :: rest) visited = true := by
  rw [is_winnableLoop]
  simp only [h1, h2, dif_neg, not_false_iff]
  split
  · next v heq =>
    rw [h3] at heq
    injection heq with hv
    simp [← hv]
  · next heq => rw [h3] at heq; cases heq

theorem is_winnableLoop_push (board : List Nat) (i : Int) (v : Nat)
    (rest visited : List Int) (h1 : i ∉ visited) (h2 : ¬ i < 0)
    (h3 : board[i.toNat]? = some v) (h4 : v ≠ 0) :
    is_winnableLoop board (i :: rest) visited =
      is_winnableLoop board
        ((i + usizeAsIsize v) :: (i - usizeAsIsize v) :: rest)
        (i :: visited) := by
  rw [is_winnableLoop]
  simp only [h1, h2, dif_neg, not_false_iff]
  split
  · next v' heq =>
    rw [h3] at heq
    injection heq with hv
    subst hv
    simp [h4]
  · next heq => rw [h3] at heq; cases heq

/-! ### Unfolding lemmas for the swapped-push variant -/

theorem is_winnableLoopPushSwapped_nil (board : List Nat) (visited : List Int) :
    is_winnableLoopPushSwapped board [] visited = false := by
  rw [is_winnableLoopPushSwapped]

theorem is_winnableLoopPushSwapped_visited (board : List Nat) (i : Int)
    (rest visited : List Int) (h : i ∈ visited) :
    is_winnableLoopPushSwapped board (i :: rest) visited =
      is_winnableLoopPushSwapped board rest visited := by
  rw [is_winnableLoopPushSwapped]
  simp [h]

theorem is_winnableLoopPushSwapped_neg (board : List Nat) (i : Int)
    (rest visited : List Int) (h1 : i ∉ visited) (h2 : i < 0) :
    is_winnableLoopPushSwapped board (i :: rest) visited =
      is_winnableLoopPushSwapped board rest (i :: visited) := by
  rw [is_winnableLoopPushSwapped]
  simp [h1, h2]

theorem is_winnableLoopPushSwapped_oobRight (board : List Nat) (i : Int)
    (rest visited : List Int) (h1 : i ∉ visited) (h2 : ¬ i < 0)
    (h3 : board[i.toNat]? = none) :
    is_winnableLoopPushSwapped board (i :: rest) visited =
      is_winnableLoopPushSwapped board rest (i :: visited) := by
  rw [is_winnableLoopPushSwapped]
  simp only [h1, h2, dite_false, dite_true, dif_neg, not_false_iff]
  split
  · simp_all
  · rfl

theorem is_winnableLoopPushSwapped_win (board : List Nat) (i : Int)
    (rest visited : List Int) (h1 : i ∉ visited) (h2 : ¬ i < 0)
    (h3 : board[i.toNat]? = some 0) :
    is_winnableLoopPushSwapped board (i :: rest) visited = true := by
  rw [is_winnableLoopPushSwapped]
  simp only [h1, h2, dif_neg, not_false_iff]
  split
  · next v heq =>
    rw [h3] at heq
    injection heq with hv
    simp [← hv]
  · next heq => rw [h3] at heq; cases heq

theorem is_winnableLoopPushSwapped_push (board : List Nat) (i : Int) (v : Nat)
    (rest visited : List Int) (h1 : i ∉ visited) (h2 : ¬ i < 0)
    (h3 : board[i.toNat]? = some v) (h4 : v ≠ 0) :
    is_winnableLoopPushSwapped board (i :: rest) visited =
      is_winnableLoopPushSwapped board
        ((i - usizeAsIsize v) :: (i + usizeAsIsize v) :: rest)
        (i :: visited) := by
  rw [is_winnableLoopPushSwapped]
  simp only [h1, h2, dif_neg, not_false_iff]
  split
  · next v' heq =>
    rw [h3] at heq
    injection heq with hv
    subst hv
    simp [h4]
  · next heq => rw [h3] at heq; cases heq

/-! ### The small-step function computes the same result as the loop -/

theorem searchStep_loopResult (board : List Nat) (s : SearchState) :
    loopResult board (searchStep board s) = loopResult board s := by
  cases s with
  | done b => rfl
  | running stack visited =>
    cases stack with
    | nil => simp [searchStep, loopResult, is_winnableLoop_nil]
    | cons i rest =>
      by_cases h1 : i ∈ visited
      · simp [searchStep, loopResult, h1, is_winnableLoop_visited]
      · by_cases h2 : i < 0
        · simp [searchStep, loopResult, h1, h2, is_winnableLoop_neg]
        · rcases hget : board[i.toNat]? with _ | v
          · simp [searchStep, loopResult, h1, h2, hget,
              is_winnableLoop_oobRight board i rest visited h1 h2 hget]
          · by_cases h4 : v = 0
            · subst h4
              simp [searchStep, loopResult, h1, h2, hget,
                is_winnableLoop_win board i rest visited h1 h2 hget]
            · simp [searchStep, loopResult, h1, h2, hget, h4,
                is_winnableLoop_push board i v rest visited h1 h2 hget h4]

theorem iterate_searchStep_loopResult (board : List Nat) (n : Nat)
    (s : SearchState) :
    loopResult board ((searchStep board)^[n] s) = loopResult board s := by
  induction n generalizing s with
  | zero => rfl
  | succ n ih =>
    rw [Function.iterate_succ_apply, ih, searchStep_loopResult]

/-- Evaluation bridge: a concrete finished run of the small-step function
determines the value of the loop. -/
theorem is_winnableLoop_of_run (board : List Nat) (stack visited : List Int)
    (n : Nat) (b : Bool)
    (h : (searchStep board)^[n] (.running stack visited) = .done b) :
    is_winnableLoop board stack visited = b := by
  have := iterate_searchStep_loopResult board n (.running stack visited)
  rw [h] at this
  exact this.symm

/-! ### Soundness: if the loop answers `true`, a winning cell is reachable -/

theorem is_winnableLoop_sound (board : List Nat) : ∀ stack visited : List Int,
    is_winnableLoop board stack visited = true →
    ∃ x ∈ stack, ∃ j, Relation.ReflTransGen (stepRelCast board) x j ∧ winIdx board j := by
  intro stack visited
  induction stack, visited using is_winnableLoop.induct board with
  | case1 visited =>
    intro h
    rw [is_winnableLoop_nil] at h
    cases h
  | case2 visited i rest hmem ih =>
    intro h
    rw [is_winnableLoop_visited board i rest visited hmem] at h
    obtain ⟨x, hx, j, hpath, hwin⟩ := ih h
    exact ⟨x, List.mem_cons_of_mem _ hx, j, hpath, hwin⟩
  | case3 visited i rest h1 h2 ih =>
    intro h
    rw [is_winnableLoop_neg board i rest visited h1 h2] at h
    obtain ⟨x, hx, j, hpath, hwin⟩ := ih h
    exact ⟨x, List.mem_cons_of_mem _ hx, j, hpath, hwin⟩
  | case4 visited i rest h1 h2 h3 =>
    intro _
    exact ⟨i, List.mem_cons_self _ _, i, Relation.ReflTransGen.refl,
      ⟨by omega, h3⟩⟩
  | case5 visited i rest h1 h2 v h3 h4 ih =>
    intro h
    rw [is_winnableLoop_push board i v rest visited h1 h2 h3 h4] at h
    obtain ⟨x, hx, j, hpath, hwin⟩ := ih h
    rcases List.mem_cons.mp hx with hx | hx
    · refine ⟨i, List.mem_cons_self _ _, j, ?_, hwin⟩
      subst hx
      exact Relation.ReflTransGen.head ⟨by omega, v, h3, Or.inr rfl⟩ hpath
    · rcases List.mem_cons.mp hx with hx | hx
      · refine ⟨i, List.mem_cons_self _ _, j, ?_, hwin⟩
        subst hx
        exact Relation.ReflTransGen.head ⟨by omega, v, h3, Or.inl rfl⟩ hpath
      · exact ⟨x, List.mem_cons_of_mem _ hx, j, hpath, hwin⟩
  | case6 visited i rest h1 h2 h3 ih =>
    intro h
    rw [is_winnableLoop_oobRight board i rest visited h1 h2 h3] at h
    obtain ⟨x, hx, j, hpath, hwin⟩ := ih h
    exact ⟨x, List.mem_cons_of_mem _ hx, j, hpath, hwin⟩

/-! ### Completeness: if the loop answers `false`, no winning cell is
reachable from any stack element (nor from any visited one) -/

theorem is_winnableLoop_complete (board : List Nat) : ∀ stack visited : List Int,
    is_winnableLoop board stack visited = false →
    (∀ u ∈ visited, ¬ winIdx board u) →
    (∀ u ∈ visited, ∀ w, stepRelCast board u w → w ∈ stack ∨ w ∈ visited) →
    ∀ x, (x ∈ stack ∨ x ∈ visited) →
    ∀ j, Relation.ReflTransGen (stepRelCast board) x j → ¬ winIdx board j := by
  intro stack visited
  induction stack, visited using is_winnableLoop.induct board with
  | case1 visited =>
    intro _ hnw hcl x hx j hpath hwin
    have hx' : x ∈ visited := by simpa using hx
    have hj : ∀ j', Relation.ReflTransGen (stepRelCast board) x j' → j' ∈ visited := by
      intro j' hp
      induction hp with
      | refl => exact hx'
      | tail hab hbc ih2 =>
        rcases hcl _ ih2 _ hbc with hc | hc
        · cases hc
        · exact hc
    exact hnw j (hj j hpath) hwin
  | case2 visited i rest hmem ih =>
    intro h hnw hcl x hx j hpath hwin
    rw [is_winnableLoop_visited board i rest visited hmem] at h
    refine ih h hnw ?_ x ?_ j hpath hwin
    · intro u hu w hw
      rcases hcl u hu w hw with hc | hc
      · rcases List.mem_cons.mp hc with hc | hc
        · exact Or.inr (hc ▸ hmem)
        · exact Or.inl hc
      · exact Or.inr hc
    · rcases hx with hx | hx
      · rcases List.mem_cons.mp hx with hx | hx
        · exact Or.inr (hx ▸ hmem)
        · exact Or.inl hx
      · exact Or.inr hx
  | case3 visited i rest h1 h2 ih =>
    intro h hnw hcl x hx j hpath hwin
    rw [is_winnableLoop_neg board i rest visited h1 h2] at h
    refine ih h ?_ ?_ x ?_ j hpath hwin
    · intro u hu hwu
      rcases List.mem_cons.mp hu with hu | hu
      · subst hu
        rcases hwu with ⟨hu0, _⟩
        omega
      · exact hnw u hu hwu
    · intro u hu w hw
      rcases List.mem_cons.mp hu with hu | hu
      · subst hu
        rcases hw with ⟨hu0, _⟩
        omega
      · rcases hcl u hu w hw with hc | hc
        · rcases List.mem_cons.mp hc with hc | hc
          · exact Or.inr (hc ▸ List.mem_cons_self _ _)
          · exact Or.inl hc
        · exact Or.inr (List.mem_cons_of_mem _ hc)
    · rcases hx with hx | hx
      · rcases List.mem_cons.mp hx with hx | hx
        · exact Or.inr (hx ▸ List.mem_cons_self _ _)
        · exact Or.inl hx
      · exact Or.inr (List.mem_cons_of_mem _ hx)
  | case4 visited i rest h1 h2 h3 =>
    intro h
    rw [is_winnableLoop_win board i rest visited h1 h2 h3] at h
    cases h
  | case5 visited i rest h1 h2 v h3 h4 ih =>
    intro h hnw hcl x hx j hpath hwin
    rw [is_winnableLoop_push board i v rest visited h1 h2 h3 h4] at h
    refine ih h ?_ ?_ x ?_ j hpath hwin
    · intro u hu hwu
      rcases List.mem_cons.mp hu with hu | hu
      · subst hu
        rcases hwu with ⟨_, hu0⟩
        rw [h3] at hu0
        injection hu0 with hv
        exact h4 hv
      · exact hnw u hu hwu
    · intro u hu w hw
      rcases List.mem_cons.mp hu with hu | hu
      · subst hu
        rcases hw with ⟨_, v', hv', hcases⟩
        rw [h3] at hv'
        injection hv' with hv
        subst hv
        rcases hcases with hc | hc
        · exact Or.inl (hc ▸ List.mem_cons_of_mem _ (List.mem_cons_self _ _))
        · exact Or.inl (hc ▸ List.mem_cons_self _ _)
      · rcases hcl u hu w hw with hc | hc
        · rcases List.mem_cons.mp hc with hc | hc
          · exact Or.inr (hc ▸ List.mem_cons_self _ _)
          · exact Or.inl
              (List.mem_cons_of_mem _ (List.mem_cons_of_mem _ hc))
        · exact Or.inr (List.mem_cons_of_mem _ hc)
    · rcases hx with hx | hx
      · rcases List.mem_cons.mp hx with hx | hx
        · exact Or.inr (hx ▸ List.mem_cons_self _ _)
        · exact Or.inl
            (List.mem_cons_of_mem _ (List.mem_cons_of_mem _ hx))
      · exact Or.inr (List.mem_cons_of_mem _ hx)
  | case6 visited i rest h1 h2 h3 ih =>
    intro h hnw hcl x hx j hpath hwin
    rw [is_winnableLoop_oobRight board i rest visited h1 h2 h3] at h
    refine ih h ?_ ?_ x ?_ j hpath hwin
    · intro u hu hwu
      rcases List.mem_cons.mp hu with hu | hu
      · subst hu
        rcases hwu with ⟨_, hu0⟩
        rw [h3] at hu0
        cases hu0
      · exact hnw u hu hwu
    · intro u hu w hw
      rcases List.mem_cons.mp hu with hu | hu
      · subst hu
        rcases hw with ⟨_, v', hv', _⟩
        rw [h3] at hv'
        cases hv'
      · rcases hcl u hu w hw with hc | hc
        · rcases List.mem_cons.mp hc with hc | hc
          · exact Or.inr (hc ▸ List.mem_cons_self _ _)
          · exact Or.inl hc
        · exact Or.inr (List.mem_cons_of_mem _ hc)
    · rcases hx with hx | hx
      · rcases List.mem_cons.mp hx with hx | hx
        · exact Or.inr (hx ▸ List.mem_cons_self _ _)
        · exact Or.inl hx
      · exact Or.inr (List.mem_cons_of_mem _ hx)

/-- The search loop started on the starting index alone decides exactly
winnability by cast jumps. -/
theorem is_winnableLoop_iff_winnableSpecCast (board : List Nat) (start : Nat) :
    is_winnableLoop board [(start : Int)] [] = true ↔ winnableSpecCast board start := by
  constructor
  · intro h
    obtain ⟨x, hx, j, hpath, hwin⟩ := is_winnableLoop_sound board _ _ h
    have hx' : x = (start : Int) := by simpa using hx
    subst hx'
    exact ⟨j, hpath, hwin⟩
  · rintro ⟨j, hpath, hwin⟩
    by_contra hfalse
    have h : is_winnableLoop board [(start : Int)] [] = false := by
      cases hb : is_winnableLoop board [(start : Int)] []
      · rfl
      · exact absurd hb hfalse
    exact is_winnableLoop_complete board _ _ h (by simp) (by simp)
      (start : Int) (Or.inl (List.mem_cons_self _ _)) j hpath hwin

/-! ### The same two directions for the swapped-push variant -/

theorem is_winnableLoopPushSwapped_sound (board : List Nat) :
    ∀ stack visited : List Int,
    is_winnableLoopPushSwapped board stack visited = true →
    ∃ x ∈ stack, ∃ j, Relation.ReflTransGen (stepRelCast board) x j ∧ winIdx board j := by
  intro stack visited
  induction stack, visited using is_winnableLoopPushSwapped.induct board with
  | case1 visited =>
    intro h
    rw [is_winnableLoopPushSwapped_nil] at h
    cases h
  | case2 visited i rest hmem ih =>
    intro h
    rw [is_winnableLoopPushSwapped_visited board i rest visited hmem] at h
    obtain ⟨x, hx, j, hpath, hwin⟩ := ih h
    exact ⟨x, List.mem_cons_of_mem _ hx, j, hpath, hwin⟩
  | case3 visited i rest h1 h2 ih =>
    intro h
    rw [is_winnableLoopPushSwapped_neg board i rest visited h1 h2] at h
    obtain ⟨x, hx, j, hpath, hwin⟩ := ih h
    exact ⟨x, List.mem_cons_of_mem _ hx, j, hpath, hwin⟩
  | case4 visited i rest h1 h2 h3 =>
    intro _
    exact ⟨i, List.mem_cons_self _ _, i, Relation.ReflTransGen.refl,
      ⟨by omega, h3⟩⟩
  | case5 visited i rest h1 h2 v h3 h4 ih =>
    intro h
    rw [is_winnableLoopPushSwapped_push board i v rest visited h1 h2 h3 h4] at h
    obtain ⟨x, hx, j, hpath, hwin⟩ := ih h
    rcases List.mem_cons.mp hx with hx | hx
    · refine ⟨i, List.mem_cons_self _ _, j, ?_, hwin⟩
      subst hx
      exact Relation.ReflTransGen.head ⟨by omega, v, h3, Or.inl rfl⟩ hpath
    · rcases List.mem_cons.mp hx with hx | hx
      · refine ⟨i, List.mem_cons_self _ _, j, ?_, hwin⟩
        subst hx
        exact Relation.ReflTransGen.head ⟨by omega, v, h3, Or.inr rfl⟩ hpath
      · exact ⟨x, List.mem_cons_of_mem _ hx, j, hpath, hwin⟩
  | case6 visited i rest h1 h2 h3 ih =>
    intro h
    rw [is_winnableLoopPushSwapped_oobRight board i rest visited h1 h2 h3] at h
    obtain ⟨x, hx, j, hpath, hwin⟩ := ih h
    exact ⟨x, List.mem_cons_of_mem _ hx, j, hpath, hwin⟩

theorem is_winnableLoopPushSwapped_complete (board : List Nat) :
    ∀ stack visited : List Int,
    is_winnableLoopPushSwapped board stack visited = false →
    (∀ u ∈ visited, ¬ winIdx board u) →
    (∀ u ∈ visited, ∀ w, stepRelCast board u w → w ∈ stack ∨ w ∈ visited) →
    ∀ x, (x ∈ stack ∨ x ∈ visited) →
    ∀ j, Relation.ReflTransGen (stepRelCast board) x j → ¬ winIdx board j := by
  intro stack visited
  induction stack, visited using is_winnableLoopPushSwapped.induct board with
  | case1 visited =>
    intro _ hnw hcl x hx j hpath hwin
    have hx' : x ∈ visited := by simpa using hx
    have hj : ∀ j', Relation.ReflTransGen (stepRelCast board) x j' → j' ∈ visited := by
      intro j' hp
      induction hp with
      | refl => exact hx'
      | tail hab hbc ih2 =>
        rcases hcl _ ih2 _ hbc with hc | hc
        · cases hc
        · exact hc
    exact hnw j (hj j hpath) hwin
  | case2 visited i rest hmem ih =>
    intro h hnw hcl x hx j hpath hwin
    rw [is_winnableLoopPushSwapped_visited board i rest visited hmem] at h
    refine ih h hnw ?_ x ?_ j hpath hwin
    · intro u hu w hw
      rcases hcl u hu w hw with hc | hc
      · rcases List.mem_cons.mp hc with hc | hc
        · exact Or.inr (hc ▸ hmem)
        · exact Or.inl hc
      · exact Or.inr hc
    · rcases hx with hx | hx
      · rcases List.mem_cons.mp hx with hx | hx
        · exact Or.inr (hx ▸ hmem)
        · exact Or.inl hx
      · exact Or.inr hx
  | case3 visited i rest h1 h2 ih =>
    intro h hnw hcl x hx j hpath hwin
    rw [is_winnableLoopPushSwapped_neg board i rest visited h1 h2] at h
    refine ih h ?_ ?_ x ?_ j hpath hwin
    · intro u hu hwu
      rcases List.mem_cons.mp hu with hu | hu
      · subst hu
        rcases hwu with ⟨hu0, _⟩
        omega
      · exact hnw u hu hwu
    · intro u hu w hw
      rcases List.mem_cons.mp hu with hu | hu
      · subst hu
        rcases hw with ⟨hu0, _⟩
        omega
      · rcases hcl u hu w hw with hc | hc
        · rcases List.mem_cons.mp hc with hc | hc
          · exact Or.inr (hc ▸ List.mem_cons_self _ _)
          · exact Or.inl hc
        · exact Or.inr (List.mem_cons_of_mem _ hc)
    · rcases hx with hx | hx
      · rcases List.mem_cons.mp hx with hx | hx
        · exact Or.inr (hx ▸ List.mem_cons_self _ _)
        · exact Or.inl hx
      · exact Or.inr (List.mem_cons_of_mem _ hx)
  | case4 visited i rest h1 h2 h3 =>
    intro h
    rw [is_winnableLoopPushSwapped_win board i rest visited h1 h2 h3] at h
    cases h
  | case5 visited i rest h1 h2 v h3 h4 ih =>
    intro h hnw hcl x hx j hpath hwin
    rw [is_winnableLoopPushSwapped_push board i v rest visited h1 h2 h3 h4] at h
    refine ih h ?_ ?_ x ?_ j hpath hwin
    · intro u hu hwu
      rcases List.mem_cons.mp hu with hu | hu
      · subst hu
        rcases hwu with ⟨_, hu0⟩
        rw [h3] at hu0
        injection hu0 with hv
        exact h4 hv
      · exact hnw u hu hwu
    · intro u hu w hw
      rcases List.mem_cons.mp hu with hu | hu
      · subst hu
        rcases hw with ⟨_, v', hv', hcases⟩
        rw [h3] at hv'
        injection hv' with hv
        subst hv
        rcases hcases with hc | hc
        · exact Or.inl (hc ▸ List.mem_cons_self _ _)
        · exact Or.inl (hc ▸ List.mem_cons_of_mem _ (List.mem_cons_self _ _))
      · rcases hcl u hu w hw with hc | hc
        · rcases List.mem_cons.mp hc with hc | hc
          · exact Or.inr (hc ▸ List.mem_cons_self _ _)
          · exact Or.inl
              (List.mem_cons_of_mem _ (List.mem_cons_of_mem _ hc))
        · exact Or.inr (List.mem_cons_of_mem _ hc)
    · rcases hx with hx | hx
      · rcases List.mem_cons.mp hx with hx | hx
        · exact Or.inr (hx ▸ List.mem_cons_self _ _)
        · exact Or.inl
            (List.mem_cons_of_mem _ (List.mem_cons_of_mem _ hx))
      · exact Or.inr (List.mem_cons_of_mem _ hx)
  | case6 visited i rest h1 h2 h3 ih =>
    intro h hnw hcl x hx j hpath hwin
    rw [is_winnableLoopPushSwapped_oobRight board i rest visited h1 h2 h3] at h
    refine ih h ?_ ?_ x ?_ j hpath hwin
    · intro u hu hwu
      rcases List.mem_cons.mp hu with hu | hu
      · subst hu
        rcases hwu with ⟨_, hu0⟩
        rw [h3] at hu0
        cases hu0
      · exact hnw u hu hwu
    · intro u hu w hw
      rcases List.mem_cons.mp hu with hu | hu
      · subst hu
        rcases hw with ⟨_, v', hv', _⟩
        rw [h3] at hv'
        cases hv'
      · rcases hcl u hu w hw with hc | hc
        · rcases List.mem_cons.mp hc with hc | hc
          · exact Or.inr (hc ▸ List.mem_cons_self _ _)
          · exact Or.inl hc
        · exact Or.inr (List.mem_cons_of_mem _ hc)
    · rcases hx with hx | hx
      · rcases List.mem_cons.mp hx with hx | hx
        · exact Or.inr (hx ▸ List.mem_cons_self _ _)
        · exact Or.inl hx
      · exact Or.inr (List.mem_cons_of_mem _ hx)

/-- The swapped-push loop also decides exactly winnability by cast
jumps. -/
theorem is_winnableLoopPushSwapped_iff_winnableSpecCast (board : List Nat)
    (start : Nat) :
    is_winnableLoopPushSwapped board [(start : Int)] [] = true ↔
      winnableSpecCast board start := by
  constructor
  · intro h
    obtain ⟨x, hx, j, hpath, hwin⟩ := is_winnableLoopPushSwapped_sound board _ _ h
    have hx' : x = (start : Int) := by simpa using hx
    subst hx'
    exact ⟨j, hpath, hwin⟩
  · rintro ⟨j, hpath, hwin⟩
    by_contra hfalse
    have h : is_winnableLoopPushSwapped board [(start : Int)] [] = false := by
      cases hb : is_winnableLoopPushSwapped board [(start : Int)] []
      · rfl
      · exact absurd hb hfalse
    exact is_winnableLoopPushSwapped_complete board _ _ h (by simp) (by simp)
      (start : Int) (Or.inl (List.mem_cons_self _ _)) j hpath hwin

/-! ### Branch lemmas for the small-step function -/

theorem searchStep_visited (board : List Nat) (i : Int) (rest visited : List Int)
    (h : i ∈ visited) :
    searchStep board (.running (i :: rest) visited) = .running rest visited := by
  simp [searchStep, h]

theorem searchStep_neg (board : List Nat) (i : Int) (rest visited : List Int)
    (h1 : i ∉ visited) (h2 : i < 0) :
    searchStep board (.running (i :: rest) visited) =
      .running rest (i :: visited) := by
  simp [searchStep, h1, h2]

theorem searchStep_oobRight (board : List Nat) (i : Int) (rest visited : List Int)
    (h1 : i ∉ visited) (h2 : ¬ i < 0) (h3 : board[i.toNat]? = none) :
    searchStep board (.running (i :: rest) visited) =
      .running rest (i :: visited) := by
  simp [searchStep, h1, h2, h3]

theorem searchStep_win (board : List Nat) (i : Int) (rest visited : List Int)
    (h1 : i ∉ visited) (h2 : ¬ i < 0) (h3 : board[i.toNat]? = some 0) :
    searchStep board (.running (i :: rest) visited) = .done true := by
  simp [searchStep, h1, h2, h3]

theorem searchStep_push (board : List Nat) (i : Int) (v : Nat)
    (rest visited : List Int) (h1 : i ∉ visited) (h2 : ¬ i < 0)
    (h3 : board[i.toNat]? = some v) (h4 : v ≠ 0) :
    searchStep board (.running (i :: rest) visited) =
      .running ((i + usizeAsIsize v) :: (i - usizeAsIsize v) :: rest)
        (i :: visited) := by
  simp [searchStep, h1, h2, h3, h4]

/-! ### The run of the small-step function reaches `done` in finitely many
iterations, with the loop's value -/

theorem searchStep_run_terminates (board : List Nat) :
    ∀ stack visited : List Int, ∃ n : Nat,
    (searchStep board)^[n] (.running stack visited) =
      .done (is_winnableLoop board stack visited) := by
  intro stack visited
  induction stack, visited using is_winnableLoop.induct board with
  | case1 visited =>
    exact ⟨1, by simp [searchStep, is_winnableLoop_nil]⟩
  | case2 visited i rest hmem ih =>
    obtain ⟨n, hn⟩ := ih
    refine ⟨n + 1, ?_⟩
    rw [Function.iterate_succ_apply, searchStep_visited board i rest visited hmem,
      hn, is_winnableLoop_visited board i rest visited hmem]
  | case3 visited i rest h1 h2 ih =>
    obtain ⟨n, hn⟩ := ih
    refine ⟨n + 1, ?_⟩
    rw [Function.iterate_succ_apply, searchStep_neg board i rest visited h1 h2,
      hn, is_winnableLoop_neg board i rest visited h1 h2]
  | case4 visited i rest h1 h2 h3 =>
    refine ⟨1, ?_⟩
    rw [Function.iterate_one, searchStep_win board i rest visited h1 h2 h3,
      is_winnableLoop_win board i rest visited h1 h2 h3]
  | case5 visited i rest h1 h2 v h3 h4 ih =>
    obtain ⟨n, hn⟩ := ih
    refine ⟨n + 1, ?_⟩
    rw [Function.iterate_succ_apply,
      searchStep_push board i v rest visited h1 h2 h3 h4, hn,
      is_winnableLoop_push board i v rest visited h1 h2 h3 h4]
  | case6 visited i rest h1 h2 h3 ih =>
    obtain ⟨n, hn⟩ := ih
    refine ⟨n + 1, ?_⟩
    rw [Function.iterate_succ_apply,
      searchStep_oobRight board i rest visited h1 h2 h3, hn,
      is_winnableLoop_oobRight board i rest visited h1 h2 h3]

/-! ### The visited list never holds a winning index -/

theorem searchStep_noWinVisited (board : List Nat) (s : SearchState)
    (h : noWinVisited board s) : noWinVisited board (searchStep board s) := by
  cases s with
  | done b => exact trivial
  | running stack visited =>
    cases stack with
    | nil => exact trivial
    | cons i rest =>
      by_cases h1 : i ∈ visited
      · rw [searchStep_visited board i rest visited h1]
        exact h
      · by_cases h2 : i < 0
        · rw [searchStep_neg board i rest visited h1 h2]
          intro x hx
          rcases List.mem_cons.mp hx with hx | hx
          · subst hx
            rintro ⟨hx0, _⟩
            omega
          · exact h x hx
        · rcases hget : board[i.toNat]? with _ | v
          · rw [searchStep_oobRight board i rest visited h1 h2 hget]
            intro x hx
            rcases List.mem_cons.mp hx with hx | hx
            · subst hx
              rintro ⟨_, hx0⟩
              rw [hget] at hx0
              cases hx0
            · exact h x hx
          · by_cases h4 : v = 0
            · subst h4
              rw [searchStep_win board i rest visited h1 h2 hget]
              exact trivial
            · rw [searchStep_push board i v rest visited h1 h2 hget h4]
              intro x hx
              rcases List.mem_cons.mp hx with hx | hx
              · subst hx
                rintro ⟨_, hx0⟩
                rw [hget] at hx0
                injection hx0 with hv
                exact h4 hv
              · exact h x hx

theorem iterate_noWinVisited (board : List Nat) (s : SearchState)
    (h : noWinVisited board s) (n : Nat) :
    noWinVisited board ((searchStep board)^[n] s) := by
  induction n generalizing s with
  | zero => exact h
  | succ n ih =>
    rw [Function.iterate_succ_apply]
    exact ih _ (searchStep_noWinVisited board s h)

/-! ### Characterization of the constructor -/

theorem JumpGame.new_ok (board : List Nat) (si : Nat) (g : JumpGame)
    (hg : JumpGame.new board si = .ok g) : g = ⟨board, si⟩ := by
  unfold JumpGame.new at hg
  split_ifs at hg
  injection hg with hg
  exact hg.symm

/-- The constructor's zero-presence check, `board.iter().any(|&x| x == 0)`,
holds exactly when `0` occurs in the board. -/
theorem board_any_zero_iff (board : List Nat) :
    board.any (fun x => x = 0) = true ↔ (0 : Nat) ∈ board := by
  simp [List.any_eq_true]

/-! ## Claims -/

/-- C1 counterexample: the claim's jump relation takes jump distances as
the unbounded stored values, but the code casts them (`*value as isize`)
with a two's-complement wrap.  On the validly constructed game
`new([usize::MAX, 0], 0)` the code casts `usize::MAX` to `-1`, pushes
`0 - (-1) = 1` then `0 + (-1) = -1`, pops `1` and finds `board[1] = 0`:
`is_winnable()` returns `true`.  Under the claim's jumps the only moves
from index `0` go to `±(2^64 - 1)`, both out of bounds, so no jump
sequence reaches a `0` — the claimed iff is false at this input. -/
theorem C1_exact_jumps_iff_counterexample :
    JumpGame.new [18446744073709551615, 0] 0 =
      .ok ⟨[18446744073709551615, 0], 0⟩ ∧
    (⟨[18446744073709551615, 0], 0⟩ : JumpGame).is_winnable = true ∧
    ¬ winnableSpec [18446744073709551615, 0] 0 := by
  refine ⟨by rfl, is_winnableLoop_of_run _ _ _ 5 true (by decide), ?_⟩
  rintro ⟨j, hpath, hwin⟩
  have hreach : ∀ x : Int,
      Relation.ReflTransGen (stepRel [18446744073709551615, 0])
        ((0 : Nat) : Int) x →
      x = 0 ∨ x = -18446744073709551615 ∨ x = 18446744073709551615 := by
    intro x hp
    induction hp with
    | refl => exact Or.inl (by norm_num)
    | tail hab hbc ih =>
      rcases ih with hb | hb | hb
      · subst hb
        obtain ⟨h0, v, hv, hc⟩ := hbc
        have hv' : v = 18446744073709551615 := by
          have he : ([18446744073709551615, 0] : List Nat)[(0 : Int).toNat]? =
              some 18446744073709551615 := rfl
          rw [he] at hv
          exact (Option.some.inj hv).symm
        subst hv'
        rcases hc with hc | hc
        · exact Or.inr (Or.inl (hc.trans (by decide)))
        · exact Or.inr (Or.inr (hc.trans (by decide)))
      · subst hb
        obtain ⟨h0, -⟩ := hbc
        omega
      · subst hb
        obtain ⟨h0, v, hv, -⟩ := hbc
        rw [List.getElem?_eq_none (by decide)] at hv
        cases hv
  rcases hreach j hpath with hj | hj | hj
  · subst hj
    obtain ⟨-, hz⟩ := hwin
    have he : ([18446744073709551615, 0] : List Nat)[(0 : Int).toNat]? =
        some 18446744073709551615 := rfl
    rw [he] at hz
    exact absurd (Option.some.inj hz) (by decide)
  · subst hj
    obtain ⟨h0, -⟩ := hwin
    omega
  · subst hj
    obtain ⟨-, hz⟩ := hwin
    rw [List.getElem?_eq_none (by decide)] at hz
    cases hz

/-- C1 (amended): for every validly constructed `JumpGame`, `is_winnable()`
returns `true` if and only if some finite sequence of jumps starting at the
starting index — where from an in-bounds index `i` with `board[i] = v` one
may move to `i - (v as isize)` or `i + (v as isize)`, the cast being the
two's-complement reinterpretation (`v` for `v < 2^63`, `v - 2^64`
otherwise) — reaches an in-bounds cell whose value is `0`.  For boards
whose values are all below `2^63` the cast is the identity and the jumps
are the claim's `i - v` and `i + v`. -/
theorem C1_is_winnable_iff_cast_reachable_zero (board : List Nat) (si : Nat)
    (g : JumpGame) (hg : JumpGame.new board si = .ok g) :
    g.is_winnable = true ↔ winnableSpecCast board si := by
  have hgeq := JumpGame.new_ok board si g hg
  subst hgeq
  exact is_winnableLoop_iff_winnableSpecCast board si

/-- Witness for the amended C1 at the concrete game `new([1,0], 0)`. -/
theorem C1_is_winnable_iff_cast_reachable_zero_witness :
    JumpGame.new [1, 0] 0 = .ok ⟨[1, 0], 0⟩ ∧
    ((⟨[1, 0], 0⟩ : JumpGame).is_winnable = true ↔ winnableSpecCast [1, 0] 0) :=
  ⟨by rfl,
    C1_is_winnable_iff_cast_reachable_zero [1, 0] 0 ⟨[1, 0], 0⟩ (by rfl)⟩

/-- C2: construction fails with `EmptyBoard` iff the board is empty, with
`StartingIndexOutOfBounds` iff the board is non-empty and the index is out
of bounds, with `NoWinningCell` iff the board is non-empty, the index is in
bounds and no cell holds `0` (so the checks happen in exactly that order),
and succeeds, storing the inputs unchanged, iff all three conditions hold;
in particular `new([], 5)` reports `EmptyBoard`. -/
theorem C2_new_validation (board : List Nat) (si : Nat) :
    (JumpGame.new board si = .error .EmptyBoard ↔ board.length = 0) ∧
    (JumpGame.new board si = .error .StartingIndexOutOfBounds ↔
      (board.length ≠ 0 ∧ board.length ≤ si)) ∧
    (JumpGame.new board si = .error .NoWinningCell ↔
      (board.length ≠ 0 ∧ si < board.length ∧ (0 : Nat) ∉ board)) ∧
    (JumpGame.new board si = .ok ⟨board, si⟩ ↔
      (board.length ≠ 0 ∧ si < board.length ∧ (0 : Nat) ∈ board)) ∧
    JumpGame.new ([] : List Nat) 5 = .error .EmptyBoard := by
  refine ⟨?_, ?_, ?_, ?_, by rfl⟩ <;> by_cases h1 : board.length = 0 <;>
      by_cases h2 : board.length ≤ si <;> by_cases h3 : (0 : Nat) ∈ board <;>
      simp [JumpGame.new, h1, h2, h3, board_any_zero_iff, not_le] <;> omega

/-- C3: on every validly constructed game the search loop terminates: after
finitely many iterations of the loop body the run is finished, carrying the
boolean `is_winnable()` returns; in particular the cyclic board
`[1,1,1,1,0]` started at `0` returns `true`. -/
theorem C3_search_terminates :
    (∀ (board : List Nat) (si : Nat) (g : JumpGame),
      JumpGame.new board si = .ok g →
      ∃ n : Nat, (searchStep g.board)^[n]
        (.running [(g.starting_index : Int)] []) = .done g.is_winnable) ∧
    (⟨[1, 1, 1, 1, 0], 0⟩ : JumpGame).is_winnable = true :=
  ⟨fun board si g _ => searchStep_run_terminates g.board _ _,
    is_winnableLoop_of_run _ _ _ 30 true (by decide)⟩

/-- Witness for C3 at the concrete cyclic game `new([1,1,1,1,0], 0)`. -/
theorem C3_search_terminates_witness :
    JumpGame.new [1, 1, 1, 1, 0] 0 = .ok ⟨[1, 1, 1, 1, 0], 0⟩ ∧
    ∃ n : Nat, (searchStep [1, 1, 1, 1, 0])^[n]
      (.running [(0 : Int)] []) = .done (⟨[1, 1, 1, 1, 0], 0⟩ : JumpGame).is_winnable :=
  ⟨by rfl,
    C3_search_terminates.1 [1, 1, 1, 1, 0] 0 ⟨[1, 1, 1, 1, 0], 0⟩ (by rfl)⟩

/-- C4 counterexample: in the run of `is_winnable()` on the validly
constructed game `new([2,0], 0)`, the candidate `2` (equal to the board
length, hence out of bounds right) is popped on the second iteration and
IS added to the visited set: after two steps the visited list is `[2, 0]`,
which contains a value not below `board.length` — refuting both the claimed
non-insertion and the claimed invariant. -/
theorem C4_oobRight_not_inserted_counterexample :
    JumpGame.new [2, 0] 0 = .ok ⟨[2, 0], 0⟩ ∧
    (searchStep [2, 0])^[2] (.running [(0 : Int)] []) =
      .running [-2] [2, 0] ∧
    (2 : Int) ∈ [(2 : Int), 0] ∧
    ([2, 0] : List Nat).length ≤ (2 : Int).toNat :=
  ⟨by rfl, by decide, by decide, by decide⟩

/-- C4 (amended): a popped candidate index `i` that is not yet visited is
added to the visited set both when `i < 0` and when `i ≥ board.length`
(the source's `visited.insert(current_index)` is reached by the
out-of-bounds-right branch too), so the visited set may contain values
`≥ board.length`. -/
theorem C4_oob_candidates_inserted (board : List Nat) (i : Int)
    (rest visited : List Int) (h1 : i ∉ visited) :
    (i < 0 → searchStep board (.running (i :: rest) visited) =
      .running rest (i :: visited)) ∧
    (0 ≤ i → board.length ≤ i.toNat →
      searchStep board (.running (i :: rest) visited) =
        .running rest (i :: visited)) := by
  constructor
  · intro h2
    exact searchStep_neg board i rest visited h1 h2
  · intro h0 hlen
    exact searchStep_oobRight board i rest visited h1 (by omega)
      (List.getElem?_eq_none hlen)

/-- Witness for the amended C4 at board `[2,0]`, candidate `2`. -/
theorem C4_oob_candidates_inserted_witness :
    (2 : Int) ∉ [(0 : Int)] ∧ (0 : Int) ≤ 2 ∧
    ([2, 0] : List Nat).length ≤ (2 : Int).toNat ∧
    searchStep [2, 0] (.running [2, -2] [0]) = .running [-2] [2, 0] :=
  ⟨by decide, by decide, by decide,
    (C4_oob_candidates_inserted [2, 0] 2 [-2] [0] (by decide)).2
      (by decide) (by decide)⟩

/-- C5: the end-to-end table of the spec, reproduced exactly: the three
boards with their listed starting indices yield the listed booleans. -/
theorem C5_end_to_end_table :
    (⟨[1, 2, 3, 0, 3, 2], 0⟩ : JumpGame).is_winnable = true ∧
    (⟨[1, 2, 3, 0, 3, 2], 5⟩ : JumpGame).is_winnable = true ∧
    (⟨[1, 7, 3, 0, 3, 2], 0⟩ : JumpGame).is_winnable = false ∧
    (⟨[1, 7, 3, 0, 3, 2], 2⟩ : JumpGame).is_winnable = true ∧
    (⟨[1, 7, 3, 0, 3, 2], 4⟩ : JumpGame).is_winnable = false ∧
    (⟨[1, 1, 6, 0, 2, 2, 2], 0⟩ : JumpGame).is_winnable = false ∧
    (⟨[1, 1, 6, 0, 2, 2, 2], 3⟩ : JumpGame).is_winnable = true ∧
    (⟨[1, 1, 6, 0, 2, 2, 2], 6⟩ : JumpGame).is_winnable = false :=
  ⟨is_winnableLoop_of_run _ _ _ 40 true (by decide),
    is_winnableLoop_of_run _ _ _ 40 true (by decide),
    is_winnableLoop_of_run _ _ _ 40 false (by decide),
    is_winnableLoop_of_run _ _ _ 40 true (by decide),
    is_winnableLoop_of_run _ _ _ 40 false (by decide),
    is_winnableLoop_of_run _ _ _ 40 false (by decide),
    is_winnableLoop_of_run _ _ _ 40 true (by decide),
    is_winnableLoop_of_run _ _ _ 40 false (by decide)⟩

/-- C6: whenever the board holds `0` at index `k`, `new(board, k)` succeeds
and the resulting game is winnable: the first pop is the starting index
itself, which is an immediate win. -/
theorem C6_start_on_zero_wins (board : List Nat) (k : Nat)
    (hk : board[k]? = some 0) :
    JumpGame.new board k = .ok ⟨board, k⟩ ∧
    (⟨board, k⟩ : JumpGame).is_winnable = true := by
  have hlen : k < board.length := (List.getElem?_eq_some.mp hk).1
  have hmem : (0 : Nat) ∈ board := by
    rcases List.getElem?_eq_some.mp hk with ⟨h, hv⟩
    exact hv ▸ List.getElem_mem h
  constructor
  · unfold JumpGame.new
    rw [if_neg (by omega), if_neg (by omega),
      if_neg (not_not_intro ((board_any_zero_iff board).mpr hmem))]
  · show is_winnableLoop board [((k : Nat) : Int)] [] = true
    apply is_winnableLoop_win board _ _ _ (by simp) (by omega)
    rwa [Int.toNat_natCast]

/-- Witness for C6 at board `[1,0]`, zero at index `1`. -/
theorem C6_start_on_zero_wins_witness :
    ([1, 0] : List Nat)[1]? = some 0 ∧
    (JumpGame.new [1, 0] 1 = .ok ⟨[1, 0], 1⟩ ∧
      (⟨[1, 0], 1⟩ : JumpGame).is_winnable = true) :=
  ⟨by rfl, C6_start_on_zero_wins [1, 0] 1 (by rfl)⟩

/-- C7: `is_winnable()` never reads the board out of bounds: a negative
candidate is handled identically for every board (the left sentinel is
recognized before any board access and discarded into the visited set); a
candidate at or past `board.length` takes the out-of-bounds-right branch
of the guarded access rather than failing; and the search is total — every
run finishes with a boolean, so no error or panic is reachable. -/
theorem C7_no_oob_board_access :
    (∀ (board board2 : List Nat) (i : Int) (rest visited : List Int),
      i < 0 → i ∉ visited →
      searchStep board (.running (i :: rest) visited) =
        searchStep board2 (.running (i :: rest) visited) ∧
      searchStep board (.running (i :: rest) visited) =
        .running rest (i :: visited)) ∧
    (∀ (board : List Nat) (i : Int) (rest visited : List Int),
      i ∉ visited → 0 ≤ i → board.length ≤ i.toNat →
      searchStep board (.running (i :: rest) visited) =
        .running rest (i :: visited)) ∧
    (∀ (board : List Nat) (stack visited : List Int),
      ∃ (n : Nat) (b : Bool),
        (searchStep board)^[n] (.running stack visited) = .done b) := by
  refine ⟨?_, ?_, ?_⟩
  · intro board board2 i rest visited h2 h1
    have e1 := searchStep_neg board i rest visited h1 h2
    have e2 := searchStep_neg board2 i rest visited h1 h2
    exact ⟨e1.trans e2.symm, e1⟩
  · intro board i rest visited h1 h0 hlen
    exact searchStep_oobRight board i rest visited h1 (by omega)
      (List.getElem?_eq_none hlen)
  · intro board stack visited
    obtain ⟨n, hn⟩ := searchStep_run_terminates board stack visited
    exact ⟨n, _, hn⟩

/-- Witness for C7: the negative sentinel `-1` is treated the same by two
different boards, and a run on `[2,0]` finishes. -/
theorem C7_no_oob_board_access_witness :
    ((-1 : Int) < 0 ∧ (-1 : Int) ∉ ([] : List Int) ∧
      searchStep [1, 0] (.running [-1] []) =
        searchStep [5, 5, 5] (.running [-1] []) ∧
      searchStep [1, 0] (.running [-1] []) = .running [] [-1]) ∧
    ((2 : Int) ∉ ([] : List Int) ∧ (0 : Int) ≤ 2 ∧
      ([1, 0] : List Nat).length ≤ (2 : Int).toNat ∧
      searchStep [1, 0] (.running [2] []) = .running [] [2]) ∧
    ∃ (n : Nat) (b : Bool),
      (searchStep [2, 0])^[n] (.running [(0 : Int)] []) = .done b :=
  ⟨⟨by decide, by decide,
      C7_no_oob_board_access.1 [1, 0] [5, 5, 5] (-1) [] [] (by decide) (by decide)⟩,
    ⟨by decide, by decide, by decide,
      C7_no_oob_board_access.2.1 [1, 0] 2 [] [] (by decide) (by decide) (by decide)⟩,
    C7_no_oob_board_access.2.2 [2, 0] [(0 : Int)] []⟩

/-- C8: `is_winnable()` is a pure, deterministic query: repeated calls on
the same validly constructed instance agree, and the answer depends on
nothing but the two stored fields (any instance with the same board and
starting index gets the same answer; in the embedding the instance itself
is immutable data, as the Rust method borrows `&self` immutably). -/
theorem C8_pure_deterministic (board : List Nat) (si : Nat) (g : JumpGame)
    (hg : JumpGame.new board si = .ok g) :
    g.is_winnable = g.is_winnable ∧
    ∀ g2 : JumpGame, g2.board = g.board →
      g2.starting_index = g.starting_index → g2.is_winnable = g.is_winnable := by
  refine ⟨rfl, ?_⟩
  intro g2 hb hs
  obtain ⟨b2, s2⟩ := g2
  obtain ⟨b, s⟩ := g
  have hb' : b2 = b := hb
  have hs' : s2 = s := hs
  subst hb'
  subst hs'
  rfl

/-- Witness for C8 at the concrete game `new([1,0], 0)`. -/
theorem C8_pure_deterministic_witness :
    JumpGame.new [1, 0] 0 = .ok ⟨[1, 0], 0⟩ ∧
    ((⟨[1, 0], 0⟩ : JumpGame).is_winnable = (⟨[1, 0], 0⟩ : JumpGame).is_winnable ∧
      ∀ g2 : JumpGame, g2.board = (⟨[1, 0], 0⟩ : JumpGame).board →
        g2.starting_index = (⟨[1, 0], 0⟩ : JumpGame).starting_index →
        g2.is_winnable = (⟨[1, 0], 0⟩ : JumpGame).is_winnable) :=
  ⟨by rfl, C8_pure_deterministic [1, 0] 0 ⟨[1, 0], 0⟩ (by rfl)⟩

/-- C9: the boolean result of `is_winnable()` does not depend on the order
in which the two successors `i - v` and `i + v` are pushed: on every
validly constructed instance the variant pushing `i + v` first returns the
same result as the implemented order. -/
theorem C9_push_order_irrelevant (board : List Nat) (si : Nat) (g : JumpGame)
    (hg : JumpGame.new board si = .ok g) :
    g.is_winnable = g.is_winnablePushSwapped := by
  have hgeq := JumpGame.new_ok board si g hg
  subst hgeq
  have h1 := is_winnableLoop_iff_winnableSpecCast board si
  have h2 := is_winnableLoopPushSwapped_iff_winnableSpecCast board si
  show is_winnableLoop board [(si : Int)] [] =
    is_winnableLoopPushSwapped board [(si : Int)] []
  cases hb : is_winnableLoop board [(si : Int)] [] with
  | true => exact (h2.mpr (h1.mp hb)).symm
  | false =>
    cases hb2 : is_winnableLoopPushSwapped board [(si : Int)] [] with
    | false => rfl
    | true =>
      have := h1.mpr (h2.mp hb2)
      rw [hb] at this
      cases this

/-- Witness for C9 at the concrete game `new([1,2,3,0,3,2], 0)`. -/
theorem C9_push_order_irrelevant_witness :
    JumpGame.new [1, 2, 3, 0, 3, 2] 0 = .ok ⟨[1, 2, 3, 0, 3, 2], 0⟩ ∧
    (⟨[1, 2, 3, 0, 3, 2], 0⟩ : JumpGame).is_winnable =
      (⟨[1, 2, 3, 0, 3, 2], 0⟩ : JumpGame).is_winnablePushSwapped :=
  ⟨by rfl,
    C9_push_order_irrelevant [1, 2, 3, 0, 3, 2] 0 ⟨[1, 2, 3, 0, 3, 2], 0⟩ (by rfl)⟩

/-- C10: a popped candidate already in the visited set is discarded without
inspecting its cell; any other popped candidate is inserted into the
visited set before the next iteration (including out-of-bounds-right ones)
unless its cell holds `0`, in which case the loop returns `true` at once
without inserting; consequently the visited set of every reachable state of
a run contains no in-bounds index holding `0`. -/
theorem C10_visited_insertion_invariant :
    (∀ (board : List Nat) (i : Int) (rest visited : List Int), i ∈ visited →
      searchStep board (.running (i :: rest) visited) = .running rest visited) ∧
    (∀ (board : List Nat) (i : Int) (rest visited : List Int),
      i ∉ visited → ¬ winIdx board i →
      stateVisited (searchStep board (.running (i :: rest) visited)) =
        some (i :: visited)) ∧
    (∀ (board : List Nat) (i : Int) (rest visited : List Int),
      i ∉ visited → winIdx board i →
      searchStep board (.running (i :: rest) visited) = .done true) ∧
    (∀ (board : List Nat) (start : Int) (n : Nat),
      noWinVisited board ((searchStep board)^[n] (.running [start] []))) := by
  refine ⟨?_, ?_, ?_, ?_⟩
  · intro board i rest visited h
    exact searchStep_visited board i rest visited h
  · intro board i rest visited h1 hnw
    by_cases h2 : i < 0
    · rw [searchStep_neg board i rest visited h1 h2]
      rfl
    · rcases hget : board[i.toNat]? with _ | v
      · rw [searchStep_oobRight board i rest visited h1 h2 hget]
        rfl
      · by_cases h4 : v = 0
        · subst h4
          exact absurd ⟨by omega, hget⟩ hnw
        · rw [searchStep_push board i v rest visited h1 h2 hget h4]
          rfl
  · intro board i rest visited h1 hw
    obtain ⟨h0, hz⟩ := hw
    exact searchStep_win board i rest visited h1 (by omega) hz
  · intro board start n
    exact iterate_noWinVisited board _ (by simp [noWinVisited]) n

/-- Witness for C10: the four components at concrete inputs. -/
theorem C10_visited_insertion_invariant_witness :
    ((0 : Int) ∈ [(0 : Int)] ∧
      searchStep [1, 0] (.running [0, -1] [0]) = .running [-1] [0]) ∧
    ((2 : Int) ∉ [(0 : Int)] ∧ ¬ winIdx [2, 0] 2 ∧
      stateVisited (searchStep [2, 0] (.running [2, -2] [0])) = some [2, 0]) ∧
    ((1 : Int) ∉ ([] : List Int) ∧ winIdx [1, 0] 1 ∧
      searchStep [1, 0] (.running [(1 : Int)] []) = .done true) ∧
    noWinVisited [2, 0] ((searchStep [2, 0])^[2] (.running [(0 : Int)] [])) :=
  ⟨⟨by decide, C10_visited_insertion_invariant.1 [1, 0] 0 [-1] [0] (by decide)⟩,
    ⟨by decide, by simp [winIdx], C10_visited_insertion_invariant.2.1 [2, 0] 2 [-2] [0]
        (by decide) (by simp [winIdx])⟩,
    ⟨by decide, ⟨by decide, by rfl⟩, C10_visited_insertion_invariant.2.2.1 [1, 0] 1 [] []
        (by decide) ⟨by decide, by rfl⟩⟩,
    C10_visited_insertion_invariant.2.2.2 [2, 0] 0 2⟩
